import Mathlib

/-!
Verification of the id-tracker component (src/id-tracker.cpp).

The tracker is a sparse, ordered set of non-negative integer identifiers:
an ordered map from block index (id >> 16) to a fixed-size bitmap of
65536 presence bits (stored as 2048 32-bit words), together with a scan
cursor (`next_start`) used to resume pop-minimum scans, and a monotonic
guard (`old_id`) asserted against by `pop_mark`.

Machine integers are modelled as `Nat` with explicit truncation where the
source's `uint32_t` arithmetic matters (word values stay below `2 ^ 32`).
The `std::map` is modelled as an association list sorted strictly by key.
-/

namespace IdTrackerSpec

def BLOCK_BITS : Nat := 16

def BLOCK_SIZE : Nat := 1 <<< BLOCK_BITS

def BLOCK_MASK : Nat := BLOCK_SIZE - 1

/-- Number of 32-bit words in a block: `BLOCK_SIZE >> 5` in the source. -/
def WORD_COUNT : Nat := BLOCK_SIZE >>> 5

/-- Modulus of the source's `uint32_t` word type. -/
def U32 : Nat := 2 ^ 32

/-- Modelled from the spec: `osmid_t` is defined in a header that is not part
of the reviewed sources.  The spec describes identifiers as non-negative and
"effectively 64-bit", and requires the guard reset value
(`std::numeric_limits<osmid_t>::min()`) to lie strictly below every valid
identifier (resetting the guard must make the next pop unconstrained, and
popping after a reset "must not crash").  That matches a signed 64-bit
integer: valid identifiers are the naturals up to `2 ^ 63 - 1`, the minimum
representable value is `-2 ^ 63`. -/
def OSMID_MAX : Nat := 2 ^ 63 - 1

/-- Modelled from the spec: minimum representable `osmid_t` value, see
`OSMID_MAX`. -/
def OSMID_MIN : Int := -(2 ^ 63)

/-- A block: `BLOCK_SIZE` presence bits packed into 32-bit words
(`std::vector<uint32_t> bits`). -/
structure block where
  bits : List Nat

/-- `block::block()` : all words zero. -/
def block.new : block := ⟨List.replicate WORD_COUNT 0⟩

/-- `block::operator[](i)` : `(bits[i >> 5] & (1 << (i & 0x1f))) > 0`. -/
def block.get (b : block) (i : Nat) : Bool :=
  (b.bits.getD (i >>> 5) 0) &&& (1 <<< (i &&& 0x1f)) ≠ 0

/-- `block::set(i, value)` : or in, or mask out, the bit `i & 0x1f` of word
`i >> 5`.  The source's `bit &= ~mask` on `uint32_t` is `&&&` with the
complement of the mask inside the 32-bit word. -/
def block.set (b : block) (i : Nat) (value : Bool) : block :=
  let mask := 1 <<< (i &&& 0x1f)
  let w := b.bits.getD (i >>> 5) 0
  ⟨b.bits.set (i >>> 5) (if value then w ||| mask else w &&& ((U32 - 1) ^^^ mask))⟩

/-- The word-skip loop of `block::next_set`:
`while ((bit_i < (BLOCK_SIZE >> 5)) && (bits[bit_i] == 0)) ++bit_i;`. -/
def scanWords (bits : List Nat) (bit_i : Nat) : Nat :=
  if h : bit_i < WORD_COUNT ∧ bits.getD bit_i 0 = 0 then scanWords bits (bit_i + 1)
  else bit_i
termination_by WORD_COUNT - bit_i
decreasing_by have := h.1; omega

/-- The bit-resolve loop of `block::next_set`:
`while ((bit & 1) == 0) { ++idx; bit >>= 1; }`.  The source only runs this
loop on a nonzero word; the extra `bit ≠ 0` conjunct makes the unreachable
`bit = 0` case terminate instead of looping forever. -/
def scanBits (bit : Nat) (idx : Nat) : Nat :=
  if h : bit % 2 = 0 ∧ bit ≠ 0 then scanBits (bit / 2) (idx + 1)
  else idx
termination_by bit
decreasing_by exact Nat.div_lt_self (Nat.pos_of_ne_zero h.2) Nat.one_lt_two

/-- `block::next_set(start)` : skip zero words from the word containing
`start`, then resolve the lowest set bit of the first nonzero word; return
`BLOCK_SIZE` if all words from `start >> 5` on are zero. -/
def block.next_set (b : block) (start : Nat) : Nat :=
  let bit_i := scanWords b.bits (start >>> 5)
  if bit_i ≥ WORD_COUNT then BLOCK_SIZE
  else scanBits (b.bits.getD bit_i 0) (bit_i <<< 5)

/-- `std::map::find` on the key-sorted association list. -/
def lookup (k : Nat) : List (Nat × block) → Option block
  | [] => none
  | (k', b) :: rest => if k = k' then some b else lookup k rest

/-- `pending[k]` followed by a mutation `f` of the found block:
`std::map::operator[]` default-constructs the entry when the key is absent,
keeping the map sorted by key. -/
def insertWith (k : Nat) (f : block → block) : List (Nat × block) → List (Nat × block)
  | [] => [(k, f block.new)]
  | (k', b) :: rest =>
    if k < k' then (k, f block.new) :: (k', b) :: rest
    else if k = k' then (k', f b) :: rest
    else (k', b) :: insertWith k f rest

/-- State of `id_tracker::pimpl`: the sorted block map `pending`, the
monotonic guard `old_id` and the scan-cursor cache `next_start`. -/
structure pimpl where
  pending : List (Nat × block)
  old_id : Int
  next_start : Option Nat

/-- `id_tracker::pimpl::pimpl()`. -/
def pimpl.init : pimpl := ⟨[], OSMID_MIN, none⟩

/-- Body of `id_tracker::pimpl::get`, at the level of the block map. -/
def mapGet (l : List (Nat × block)) (id : Nat) : Bool :=
  match lookup (id >>> BLOCK_BITS) l with
  | none => false
  | some b => b.get (id &&& BLOCK_MASK)

/-- `id_tracker::pimpl::get(id)` : absent block means unmarked; lookups do
not create entries. -/
def pimpl.get (s : pimpl) (id : Nat) : Bool := mapGet s.pending id

/-- `id_tracker::pimpl::set(id, value)` : `pending[block].set(offset, value)`
and conditional cursor invalidation `if (next_start) next_start = none`. -/
def pimpl.set (s : pimpl) (id : Nat) (value : Bool) : pimpl :=
  { s with
    pending := insertWith (id >>> BLOCK_BITS) (fun b => b.set (id &&& BLOCK_MASK) value) s.pending
    next_start := if s.next_start.isSome then none else s.next_start }

/-- The loop of `id_tracker::pimpl::pop_min`, returning the popped id and the
updated map and cursor.  `none` models the undefined behaviour of
dereferencing `pending.begin()` when the loop is entered with an empty map
(possible only if `next_start` is engaged while `pending` is empty).
Exiting the loop returns the initial `id = std::numeric_limits<osmid_t>::max()`. -/
def pop_min_go : List (Nat × block) → Option Nat → Option (Nat × List (Nat × block) × Option Nat)
  | [], some _ => none
  | [], none => some (OSMID_MAX, [], none)
  | (k, b) :: rest, ns =>
    let start := ns.getD 0
    let b_itr := b.next_set start
    if b_itr ≠ BLOCK_SIZE then
      some ((k <<< BLOCK_BITS) ||| b_itr, (k, b.set b_itr false) :: rest, some b_itr)
    else
      pop_min_go rest none

/-- Number of iterations the `pop_min` loop performs, mirroring
`pop_min_go` branch for branch: entering the loop body counts one
iteration, whether it breaks, dereferences an empty map, or erases the
exhausted head block and continues. -/
def pop_min_iters : List (Nat × block) → Option Nat → Nat
  | [], some _ => 1
  | [], none => 0
  | (_, b) :: rest, ns =>
    if b.next_set (ns.getD 0) ≠ BLOCK_SIZE then 1
    else 1 + pop_min_iters rest none

/-- `id_tracker::pimpl::pop_min()`. -/
def pimpl.pop_min (s : pimpl) : Option (Nat × pimpl) :=
  match pop_min_go s.pending s.next_start with
  | none => none
  | some (id, p', ns') => some (id, { s with pending := p', next_start := ns' })

/-- `id_tracker::mark(id)` : set the bit and reset the monotonic guard to
the minimum possible value. -/
def mark (s : pimpl) (id : Nat) : pimpl :=
  { s.set id true with old_id := OSMID_MIN }

/-- `id_tracker::is_marked(id)` : the method is declared non-const in the
source but only calls the const `pimpl::get`; modelled as returning the
answer together with the (unchanged) state. -/
def is_marked (s : pimpl) (id : Nat) : Bool × pimpl := (s.get id, s)

/-- `id_tracker::pop_mark()` : pop the minimum, evaluate the assertion
`(id > old_id) || (id == max)`, and update the guard.  The `Bool` in the
result records whether the assertion held. -/
def pop_mark (s : pimpl) : Option (Nat × Bool × pimpl) :=
  match s.pop_min with
  | none => none
  | some (id, s') =>
    some (id, decide (s'.old_id < (id : Int)) || decide (id = OSMID_MAX),
      { s' with old_id := (id : Int) })

/-- Tracker states reachable from a freshly constructed tracker by any
finite sequence of `mark` / `is_marked` / `pop_mark` calls with valid
(representable, non-negative) identifiers.  `is_marked` leaves the state
unchanged, so it needs no constructor. -/
inductive Reachable : pimpl → Prop
  | start : Reachable pimpl.init
  | step_mark (s : pimpl) (id : Nat) : Reachable s → id ≤ OSMID_MAX → Reachable (mark s id)
  | step_pop (s : pimpl) (id : Nat) (ok : Bool) (s' : pimpl) :
      Reachable s → pop_mark s = some (id, ok, s') → Reachable s'

/-- Well-formedness of a block: exactly `WORD_COUNT` words, each a valid
`uint32_t` value. -/
def blockWF (b : block) : Prop :=
  b.bits.length = WORD_COUNT ∧ ∀ w ∈ b.bits, w < U32

/-- Well-formedness of the block map: keys strictly sorted (the `std::map`
invariant) and every block well-formed. -/
def mapWF (l : List (Nat × block)) : Prop :=
  l.Pairwise (fun a b => a.1 < b.1) ∧ ∀ kb ∈ l, blockWF kb.2

/-- Cursor invariant: an engaged cursor refers to the current first block,
its value is a valid offset, and every bit of that block at or below the
cursor is clear (the scan that set it verified the bits below and cleared
the bit at the cursor itself). -/
def cursorInv : List (Nat × block) → Option Nat → Prop
  | _, none => True
  | [], some _ => False
  | (_, b) :: _, some c => c < BLOCK_SIZE ∧ ∀ j, j ≤ c → b.get j = false

/-- Guard invariant: every pending identifier lies strictly above the
monotonic guard. -/
def guardInv (s : pimpl) : Prop :=
  ∀ id, s.get id = true → s.old_id < (id : Int)

def Inv (s : pimpl) : Prop :=
  mapWF s.pending ∧ cursorInv s.pending s.next_start ∧ guardInv s

/-- One call in a client trace: a `mark(id)` call or a `pop_mark()` call. -/
inductive Op where
  | markOp (id : Nat)
  | popOp

/-- A call is valid when its identifier argument is representable. -/
def opValid : Op → Prop
  | .markOp id => id ≤ OSMID_MAX
  | .popOp => True

instance : DecidablePred opValid := fun op =>
  match op with
  | .markOp id => inferInstanceAs (Decidable (id ≤ OSMID_MAX))
  | .popOp => Decidable.isTrue trivial

/-- Run a trace of calls against the tracker, computing alongside it the
reference membership predicate of the spec: a `mark` makes its identifier
pending, a pop makes the identifier it returned non-pending.  `none` signals
the (unreachable) empty-map dereference inside `pop_min`. -/
def runTrack : pimpl → (Nat → Bool) → List Op → Option (pimpl × (Nat → Bool))
  | s, f, [] => some (s, f)
  | s, f, Op.markOp id :: rest =>
    runTrack (mark s id) (fun j => if j = id then true else f j) rest
  | s, f, Op.popOp :: rest =>
    match pop_mark s with
    | none => none
    | some (id, _, s') => runTrack s' (fun j => if j = id then false else f j) rest

/-! ### Arithmetic normalisation of the shift/mask addressing -/

theorem shiftRight_five (i : Nat) : i >>> 5 = i / 32 := by
  rw [Nat.shiftRight_eq_div_pow]

theorem and_31 (i : Nat) : i &&& 31 = i % 32 := by
  have h := Nat.and_pow_two_sub_one_eq_mod i 5
  norm_num at h
  exact h

theorem shiftRight_sixteen (i : Nat) : i >>> BLOCK_BITS = i / 65536 := by
  rw [BLOCK_BITS, Nat.shiftRight_eq_div_pow]

theorem and_BLOCK_MASK (i : Nat) : i &&& BLOCK_MASK = i % 65536 := by
  have h := Nat.and_pow_two_sub_one_eq_mod i 16
  norm_num at h
  rw [show BLOCK_MASK = 65535 from rfl]
  exact h

theorem shiftLeft_five (i : Nat) : i <<< 5 = 32 * i := by
  rw [Nat.shiftLeft_eq]; ring

theorem BLOCK_SIZE_eq : BLOCK_SIZE = 65536 := rfl

theorem WORD_COUNT_eq : WORD_COUNT = 2048 := rfl

/-- Recomposition of a popped identifier: `(k << 16) | r` with an in-block
offset `r` is plain positional arithmetic. -/
theorem shiftLeft_or_eq (k r : Nat) (hr : r < 65536) :
    (k <<< BLOCK_BITS) ||| r = 65536 * k + r := by
  have hmod : ((k <<< BLOCK_BITS) ||| r) % 65536 = r := by
    have hdist := Nat.and_distrib_right (k <<< BLOCK_BITS) r (2 ^ 16 - 1)
    have h1 : (k <<< BLOCK_BITS) &&& (2 ^ 16 - 1) = 0 := by
      rw [Nat.and_pow_two_sub_one_eq_mod, BLOCK_BITS, Nat.shiftLeft_eq,
        Nat.mul_mod_left]
    have h2 : r &&& (2 ^ 16 - 1) = r := Nat.and_pow_two_sub_one_of_lt_two_pow (by norm_num; omega)
    have h3 := Nat.and_pow_two_sub_one_eq_mod ((k <<< BLOCK_BITS) ||| r) 16
    rw [hdist, h1, h2, Nat.zero_or] at h3
    norm_num at h3 ⊢
    omega
  have hdiv : ((k <<< BLOCK_BITS) ||| r) / 65536 = k := by
    have : ((k <<< BLOCK_BITS) ||| r) >>> 16 = k := by
      apply Nat.eq_of_testBit_eq
      intro j
      rw [Nat.testBit_shiftRight, Nat.testBit_or, Nat.testBit_shiftLeft]
      have hrb : r.testBit (16 + j) = false :=
        Nat.testBit_lt_two_pow (lt_of_lt_of_le (show r < 2 ^ 16 by norm_num; omega)
          (Nat.pow_le_pow_right (by norm_num) (by omega)))
      rw [hrb, BLOCK_BITS]
      simp
    rw [Nat.shiftRight_eq_div_pow] at this
    norm_num at this
    exact this
  have := Nat.div_add_mod ((k <<< BLOCK_BITS) ||| r) 65536
  omega

/-! ### List helpers -/

theorem getD_cons_succ (x : Nat) (xs : List Nat) (i : Nat) :
    (x :: xs).getD (i + 1) 0 = xs.getD i 0 := rfl

theorem getD_set_self (l : List Nat) (i a : Nat) (h : i < l.length) :
    (l.set i a).getD i 0 = a := by
  induction l generalizing i with
  | nil => simp at h
  | cons x xs ih =>
    cases i with
    | zero => rfl
    | succ i => exact ih i (by simpa using h)

theorem getD_set_ne (l : List Nat) (i j a : Nat) (h : j ≠ i) :
    (l.set i a).getD j 0 = l.getD j 0 := by
  induction l generalizing i j with
  | nil => simp
  | cons x xs ih =>
    cases i with
    | zero => cases j with
      | zero => exact absurd rfl h
      | succ j => rfl
    | succ i =>
      cases j with
      | zero => rfl
      | succ j => exact ih i j (by omega)

theorem getD_of_len_le (l : List Nat) (i : Nat) (h : l.length ≤ i) :
    l.getD i 0 = 0 := by
  induction l generalizing i with
  | nil => simp
  | cons x xs ih =>
    cases i with
    | zero => simp at h
    | succ i => exact ih i (by simpa using h)

theorem getD_mem (l : List Nat) (i : Nat) (h : i < l.length) : l.getD i 0 ∈ l := by
  induction l generalizing i with
  | nil => simp at h
  | cons x xs ih =>
    cases i with
    | zero => exact List.mem_cons_self x xs
    | succ i => exact List.mem_cons_of_mem x (ih i (by simpa using h))

theorem mem_set (l : List Nat) (i a w : Nat) (h : w ∈ l.set i a) : w = a ∨ w ∈ l := by
  induction l generalizing i with
  | nil => simp at h
  | cons x xs ih =>
    cases i with
    | zero =>
      rcases List.mem_cons.mp h with h | h
      · exact Or.inl h
      · exact Or.inr (List.mem_cons_of_mem x h)
    | succ i =>
      rcases List.mem_cons.mp h with h | h
      · exact Or.inr (h ▸ List.mem_cons_self x xs)
      · rcases ih i h with h | h
        · exact Or.inl h
        · exact Or.inr (List.mem_cons_of_mem x h)

/-! ### Block lemmas -/

theorem get_eq_testBit (b : block) (i : Nat) :
    b.get i = (b.bits.getD (i / 32) 0).testBit (i % 32) := by
  unfold block.get
  have h1 : (1 : Nat) <<< (i &&& 0x1f) = 2 ^ (i % 32) := by
    rw [Nat.shiftLeft_eq, one_mul, show (0x1f : Nat) = 31 from rfl, and_31]
  rw [h1, shiftRight_five, Nat.and_two_pow]
  cases h : (b.bits.getD (i / 32) 0).testBit (i % 32) <;> simp [h]

theorem new_WF : blockWF block.new := by
  constructor
  · simp [block.new]
  · intro w hw
    have hw' : w ∈ List.replicate WORD_COUNT 0 := hw
    rw [List.eq_of_mem_replicate hw']
    norm_num [U32]

theorem getD_replicate (n i : Nat) : (List.replicate n (0 : Nat)).getD i 0 = 0 := by
  induction n generalizing i with
  | zero => simp
  | succ n ih =>
    cases i with
    | zero => rfl
    | succ i => exact ih i

theorem new_get (i : Nat) : block.new.get i = false := by
  rw [get_eq_testBit, show block.new.bits = List.replicate WORD_COUNT 0 from rfl,
    getD_replicate]
  simp

theorem get_ge_false (b : block) (hwf : blockWF b) (i : Nat) (hi : BLOCK_SIZE ≤ i) :
    b.get i = false := by
  rw [get_eq_testBit, getD_of_len_le]
  · simp
  · rw [hwf.1, WORD_COUNT_eq]
    rw [BLOCK_SIZE_eq] at hi
    omega

theorem set_WF (b : block) (hwf : blockWF b) (i : Nat) (v : Bool) :
    blockWF (b.set i v) := by
  have hword : b.bits.getD (i >>> 5) 0 < U32 := by
    rcases Nat.lt_or_ge (i >>> 5) b.bits.length with h | h
    · exact hwf.2 _ (getD_mem _ _ h)
    · rw [getD_of_len_le _ _ h]; norm_num [U32]
  constructor
  · rw [block.set]
    simpa using hwf.1
  · intro w hw
    rw [block.set] at hw
    rcases mem_set _ _ _ _ hw with h | h
    · subst h
      split
      · apply Nat.or_lt_two_pow hword
        rw [Nat.shiftLeft_eq, one_mul, show (0x1f : Nat) = 31 from rfl, and_31]
        exact Nat.pow_lt_pow_right (by norm_num) (Nat.mod_lt _ (by norm_num))
      · exact lt_of_le_of_lt Nat.and_le_left hword
    · exact hwf.2 _ h

theorem get_set_self (b : block) (hwf : blockWF b) (i : Nat) (hi : i < BLOCK_SIZE) (v : Bool) :
    (b.set i v).get i = v := by
  have hlen : i / 32 < b.bits.length := by
    rw [hwf.1, WORD_COUNT_eq]
    rw [BLOCK_SIZE_eq] at hi
    omega
  have hword : b.bits.getD (i / 32) 0 < U32 := hwf.2 _ (getD_mem _ _ hlen)
  rw [get_eq_testBit, block.set]
  show ((b.bits.set (i >>> 5) _).getD (i / 32) 0).testBit (i % 32) = v
  rw [shiftRight_five, getD_set_self _ _ _ hlen]
  rw [Nat.shiftLeft_eq, one_mul, show (0x1f : Nat) = 31 from rfl, and_31]
  cases v with
  | true =>
    simp [Nat.testBit_or, Nat.testBit_two_pow_self]
  | false =>
    simp only [Bool.false_eq_true, if_neg, ite_false]
    rw [Nat.testBit_and, Nat.testBit_xor]
    have h31 : (U32 - 1 : Nat) = 2 ^ 32 - 1 := rfl
    rw [h31, Nat.testBit_two_pow_sub_one, Nat.testBit_two_pow_self]
    simp [Nat.mod_lt i (show 0 < 32 by norm_num)]

theorem get_set_ne (b : block) (hwf : blockWF b) (i j : Nat) (hi : i < BLOCK_SIZE)
    (hne : j ≠ i) (v : Bool) : (b.set i v).get j = b.get j := by
  have hword : ∀ w ∈ b.bits, w < U32 := hwf.2
  rw [get_eq_testBit, get_eq_testBit, block.set]
  show ((b.bits.set (i >>> 5) _).getD (j / 32) 0).testBit (j % 32) = _
  rw [shiftRight_five]
  rcases eq_or_ne (j / 32) (i / 32) with hw | hw
  · -- same word, different bit position
    have hpos : j % 32 ≠ i % 32 := by omega
    have hlen : i / 32 < b.bits.length := by
      rw [hwf.1, WORD_COUNT_eq]
      rw [BLOCK_SIZE_eq] at hi
      omega
    rw [hw, getD_set_self _ _ _ hlen]
    rw [Nat.shiftLeft_eq, one_mul, show (0x1f : Nat) = 31 from rfl, and_31]
    cases v with
    | true =>
      rw [if_pos rfl, Nat.testBit_or, Nat.testBit_two_pow_of_ne (by omega)]
      simp
    | false =>
      simp only [Bool.false_eq_true, if_neg, ite_false]
      rw [Nat.testBit_and, Nat.testBit_xor]
      have h31 : (U32 - 1 : Nat) = 2 ^ 32 - 1 := rfl
      rw [h31, Nat.testBit_two_pow_sub_one, Nat.testBit_two_pow_of_ne (by omega)]
      simp [Nat.mod_lt j (show 0 < 32 by norm_num)]
  · rw [getD_set_ne _ _ _ _ hw]

/-! ### Correctness of the next-set-bit scan -/

theorem scanWords_spec (bits : List Nat) (i : Nat) :
    i ≤ scanWords bits i ∧
    (∀ j, i ≤ j → j < scanWords bits i → bits.getD j 0 = 0) ∧
    (scanWords bits i < WORD_COUNT → bits.getD (scanWords bits i) 0 ≠ 0) := by
  generalize hn : WORD_COUNT - i = n
  induction n generalizing i with
  | zero =>
    rw [scanWords]
    split
    · next h => exact absurd h.1 (by omega)
    · next h =>
      push_neg at h
      exact ⟨Nat.le_refl i, fun j h1 h2 => absurd h1 (by omega), h⟩
  | succ n ih =>
    rw [scanWords]
    split
    · next h =>
      obtain ⟨ih1, ih2, ih3⟩ := ih (i + 1) (by omega)
      refine ⟨by omega, ?_, ih3⟩
      intro j hj1 hj2
      rcases Nat.eq_or_lt_of_le hj1 with rfl | hj
      · exact h.2
      · exact ih2 j hj hj2
    · next h =>
      push_neg at h
      exact ⟨Nat.le_refl i, fun j h1 h2 => absurd h1 (by omega), h⟩

theorem scanBits_spec (bit : Nat) : ∀ (idx : Nat), bit ≠ 0 →
    ∃ t, scanBits bit idx = idx + t ∧ bit.testBit t = true ∧
      ∀ u, u < t → bit.testBit u = false := by
  induction bit using Nat.strong_induction_on with
  | _ bit ih =>
    intro idx hbit
    rw [scanBits]
    split
    · next h =>
      have h2 : bit / 2 ≠ 0 := by omega
      obtain ⟨t, ht, htb, hlt⟩ :=
        ih (bit / 2) (Nat.div_lt_self (Nat.pos_of_ne_zero h.2) Nat.one_lt_two) (idx + 1) h2
      refine ⟨t + 1, by rw [ht]; omega, ?_, ?_⟩
      · rw [Nat.testBit_add_one]; exact htb
      · intro u hu
        cases u with
        | zero => rw [Nat.testBit_zero]; simp; omega
        | succ u => rw [Nat.testBit_add_one]; exact hlt u (by omega)
    · next h =>
      push_neg at h
      have hodd : bit % 2 = 1 := by
        rcases Nat.mod_two_eq_zero_or_one bit with h0 | h1
        · exact absurd (h h0) hbit
        · exact h1
      refine ⟨0, by omega, ?_, fun u hu => absurd hu (by omega)⟩
      rw [Nat.testBit_zero]
      simp [hodd]

/-- What `block::next_set` actually computes on a well-formed block: the scan
is word-aligned.  Either every bit at or after the word boundary
`32 * (start / 32)` is clear and the sentinel `BLOCK_SIZE` is returned, or
the result is the smallest set-bit offset at or after that word boundary
(which can be smaller than `start` itself when `start` is not word-aligned). -/
theorem next_set_spec (b : block) (hwf : blockWF b) (start : Nat) :
    (b.next_set start = BLOCK_SIZE ∧ ∀ o, 32 * (start / 32) ≤ o → b.get o = false) ∨
    (b.next_set start < BLOCK_SIZE ∧ b.get (b.next_set start) = true ∧
      32 * (start / 32) ≤ b.next_set start ∧
      ∀ o, 32 * (start / 32) ≤ o → o < b.next_set start → b.get o = false) := by
  obtain ⟨hge, hzero, hnz⟩ := scanWords_spec b.bits (start / 32)
  rw [block.next_set, shiftRight_five, shiftLeft_five]
  generalize hgen : scanWords b.bits (start / 32) = q at hge hzero hnz ⊢
  by_cases hcase : q ≥ WORD_COUNT
  · rw [if_pos hcase]
    left
    refine ⟨rfl, ?_⟩
    intro o ho
    rw [get_eq_testBit]
    rcases Nat.lt_or_ge (o / 32) q with hlt | hge2
    · rw [hzero (o / 32) (by omega) hlt]
      simp
    · rw [getD_of_len_le _ _ (by rw [hwf.1]; omega)]
      simp
  · rw [if_neg hcase]
    push_neg at hcase
    right
    have hw : b.bits.getD q 0 ≠ 0 := hnz hcase
    have hqlen : q < b.bits.length := by rw [hwf.1]; exact hcase
    have hw32 : b.bits.getD q 0 < U32 := hwf.2 _ (getD_mem _ _ hqlen)
    obtain ⟨t, heq, htb, hlt⟩ := scanBits_spec (b.bits.getD q 0) (32 * q) hw
    have ht32 : t < 32 := by
      by_contra hcon
      push_neg at hcon
      have hfalse : (b.bits.getD q 0).testBit t = false :=
        Nat.testBit_lt_two_pow (lt_of_lt_of_le hw32 (Nat.pow_le_pow_right (by norm_num) hcon))
      rw [hfalse] at htb
      exact Bool.noConfusion htb
    rw [heq]
    have hWC : WORD_COUNT = 2048 := rfl
    have hBS : BLOCK_SIZE = 65536 := rfl
    refine ⟨by omega, ?_, by omega, ?_⟩
    · rw [get_eq_testBit, show (32 * q + t) / 32 = q by omega, show (32 * q + t) % 32 = t by omega]
      exact htb
    · intro o ho1 ho2
      rw [get_eq_testBit]
      rcases Nat.lt_trichotomy (o / 32) q with hc | hc | hc
      · rw [hzero (o / 32) (by omega) hc]
        simp
      · rw [hc]
        exact hlt (o % 32) (by omega)
      · exact absurd hc (by omega)

/-! ### Sorted association-list map lemmas -/

theorem lookup_eq_none (k : Nat) (l : List (Nat × block)) (h : ∀ e ∈ l, k < e.1) :
    lookup k l = none := by
  induction l with
  | nil => rfl
  | cons e rest ih =>
    obtain ⟨k', b⟩ := e
    rw [lookup, if_neg, ih (fun e he => h e (List.mem_cons_of_mem _ he))]
    exact Nat.ne_of_lt (h (k', b) (List.mem_cons_self _ _))

theorem lookup_mem (k : Nat) (l : List (Nat × block)) (b : block)
    (h : lookup k l = some b) : (k, b) ∈ l := by
  induction l with
  | nil => exact absurd h (by simp [lookup])
  | cons e rest ih =>
    obtain ⟨k', b'⟩ := e
    rw [lookup] at h
    split at h
    · next heq =>
      obtain rfl := heq
      obtain rfl : b' = b := by injection h
      exact List.mem_cons_self _ _
    · exact List.mem_cons_of_mem _ (ih h)

theorem insertWith_mem (k : Nat) (f : block → block) (l : List (Nat × block)) (x : Nat × block)
    (hx : x ∈ insertWith k f l) :
    (∃ b0, x = (k, f b0) ∧ (b0 = block.new ∨ (k, b0) ∈ l)) ∨ x ∈ l := by
  induction l with
  | nil =>
    rw [insertWith] at hx
    rcases List.mem_singleton.mp hx with rfl
    exact Or.inl ⟨block.new, rfl, Or.inl rfl⟩
  | cons e rest ih =>
    obtain ⟨k', b⟩ := e
    rw [insertWith] at hx
    split at hx
    · rcases List.mem_cons.mp hx with rfl | hx
      · exact Or.inl ⟨block.new, rfl, Or.inl rfl⟩
      · exact Or.inr hx
    · split at hx
      · next heq =>
        obtain rfl := heq
        rcases List.mem_cons.mp hx with rfl | hx
        · exact Or.inl ⟨b, rfl, Or.inr (List.mem_cons_self _ _)⟩
        · exact Or.inr (List.mem_cons_of_mem _ hx)
      · rcases List.mem_cons.mp hx with rfl | hx
        · exact Or.inr (List.mem_cons_self _ _)
        · rcases ih hx with ⟨b0, rfl, hb0⟩ | hx
          · refine Or.inl ⟨b0, rfl, ?_⟩
            rcases hb0 with rfl | hb0
            · exact Or.inl rfl
            · exact Or.inr (List.mem_cons_of_mem _ hb0)
          · exact Or.inr (List.mem_cons_of_mem _ hx)

theorem insertWith_pairwise (k : Nat) (f : block → block) (l : List (Nat × block))
    (h : l.Pairwise (fun a b => a.1 < b.1)) :
    (insertWith k f l).Pairwise (fun a b => a.1 < b.1) := by
  induction l with
  | nil => simp [insertWith]
  | cons e rest ih =>
    obtain ⟨k', b⟩ := e
    obtain ⟨hlt, htail⟩ := List.pairwise_cons.mp h
    rw [insertWith]
    split
    · next hk =>
      refine List.Pairwise.cons ?_ h
      intro y hy
      rcases List.mem_cons.mp hy with rfl | hy
      · exact hk
      · exact Nat.lt_trans hk (hlt y hy)
    · split
      · next hk =>
        exact List.Pairwise.cons hlt htail
      · next hk1 hk2 =>
        refine List.Pairwise.cons ?_ (ih htail)
        intro y hy
        rcases insertWith_mem k f rest y hy with ⟨b0, rfl, _⟩ | hy
        · omega
        · exact hlt y hy

theorem insertWith_blocksWF (k : Nat) (f : block → block) (l : List (Nat × block))
    (hl : ∀ kb ∈ l, blockWF kb.2) (hf : ∀ b, blockWF b → blockWF (f b)) :
    ∀ kb ∈ insertWith k f l, blockWF kb.2 := by
  intro kb hkb
  rcases insertWith_mem k f l kb hkb with ⟨b0, rfl, hb0⟩ | hkb
  · rcases hb0 with rfl | hb0
    · exact hf _ new_WF
    · exact hf _ (hl _ hb0)
  · exact hl _ hkb

theorem lookup_insertWith (k : Nat) (f : block → block) (l : List (Nat × block))
    (hl : l.Pairwise (fun a b => a.1 < b.1)) (k' : Nat) :
    lookup k' (insertWith k f l) =
      if k' = k then some (f ((lookup k l).getD block.new)) else lookup k' l := by
  induction l with
  | nil =>
    by_cases h : k' = k <;> simp [insertWith, lookup, h]
  | cons e rest ih =>
    obtain ⟨k1, b⟩ := e
    obtain ⟨hlt, htail⟩ := List.pairwise_cons.mp hl
    rw [insertWith]
    split
    · next hk =>
      have hnone : lookup k ((k1, b) :: rest) = none := by
        refine lookup_eq_none _ _ ?_
        intro e he
        rcases List.mem_cons.mp he with rfl | he
        · exact hk
        · exact Nat.lt_trans hk (hlt e he)
      by_cases h : k' = k
      · subst h
        rw [lookup, if_pos rfl, hnone]
        simp
      · rw [if_neg h, lookup, if_neg h]
    · split
      · next hk =>
        subst hk
        by_cases h : k' = k
        · subst h
          rw [lookup, if_pos rfl, if_pos rfl, lookup, if_pos rfl]
          simp
        · rw [lookup, if_neg h, if_neg h, lookup, if_neg h]
      · next hk1 hk2 =>
        by_cases h : k' = k1
        · subst h
          rw [lookup, if_pos rfl, if_neg (by omega), lookup, if_pos rfl]
        · rw [lookup, if_neg h, ih htail]
          by_cases h2 : k' = k
          · subst h2
            rw [if_pos rfl, if_pos rfl, lookup, if_neg h]
          · rw [if_neg h2, if_neg h2, lookup, if_neg h]

/-- Effect of `pimpl::set`-style insertion on membership queries: the bit for
`id` takes the written value, every other identifier is unchanged. -/
theorem mapGet_insertWith_set (l : List (Nat × block)) (hwf : mapWF l) (id : Nat) (v : Bool)
    (j : Nat) :
    mapGet (insertWith (id >>> BLOCK_BITS) (fun b => b.set (id &&& BLOCK_MASK) v) l) j =
      if j = id then v else mapGet l j := by
  have hoff : id &&& BLOCK_MASK < BLOCK_SIZE := by
    rw [and_BLOCK_MASK, BLOCK_SIZE_eq]
    omega
  rw [mapGet, mapGet, lookup_insertWith _ _ _ hwf.1]
  by_cases hk : j >>> BLOCK_BITS = id >>> BLOCK_BITS
  · rw [if_pos hk]
    have hb0wf : blockWF ((lookup (id >>> BLOCK_BITS) l).getD block.new) := by
      cases hl : lookup (id >>> BLOCK_BITS) l with
      | none => exact new_WF
      | some bb => exact hwf.2 _ (lookup_mem _ _ _ hl)
    by_cases hj : j = id
    · subst hj
      rw [if_pos rfl]
      exact get_set_self _ hb0wf _ hoff v
    · rw [if_neg hj]
      have hoffne : j &&& BLOCK_MASK ≠ id &&& BLOCK_MASK := by
        intro hcon
        apply hj
        have e1 := Nat.div_add_mod j 65536
        have e2 := Nat.div_add_mod id 65536
        rw [and_BLOCK_MASK, and_BLOCK_MASK] at hcon
        rw [shiftRight_sixteen, shiftRight_sixteen] at hk
        omega
      have hstep := get_set_ne _ hb0wf (id &&& BLOCK_MASK) (j &&& BLOCK_MASK) hoff hoffne v
      show (((lookup (id >>> BLOCK_BITS) l).getD block.new).set (id &&& BLOCK_MASK) v).get
        (j &&& BLOCK_MASK) = _
      rw [hstep, hk]
      cases hl : lookup (id >>> BLOCK_BITS) l with
      | none => simp [new_get]
      | some bb => simp
  · rw [if_neg hk]
    have hj : j ≠ id := fun hcon => hk (by rw [hcon])
    rw [if_neg hj]

theorem mapGet_nil (j : Nat) : mapGet [] j = false := rfl

theorem cursorInv_none (l : List (Nat × block)) : cursorInv l none := by
  cases l <;> trivial

theorem mapGet_cons_eq (k : Nat) (b : block) (rest : List (Nat × block)) (j : Nat)
    (h : j >>> BLOCK_BITS = k) : mapGet ((k, b) :: rest) j = b.get (j &&& BLOCK_MASK) := by
  rw [mapGet, h, lookup, if_pos rfl]

theorem mapGet_cons_ne (k : Nat) (b : block) (rest : List (Nat × block)) (j : Nat)
    (h : j >>> BLOCK_BITS ≠ k) : mapGet ((k, b) :: rest) j = mapGet rest j := by
  rw [mapGet, mapGet, lookup, if_neg h]

theorem mapGet_eq_false_of_keys_gt (l : List (Nat × block)) (j : Nat)
    (h : ∀ e ∈ l, j >>> BLOCK_BITS < e.1) : mapGet l j = false := by
  rw [mapGet, lookup_eq_none _ _ h]

/-- A head block with no set bit is invisible to membership queries. -/
theorem mapGet_cons_clear (k : Nat) (b : block) (rest : List (Nat × block))
    (hpw : ((k, b) :: rest).Pairwise (fun a b => a.1 < b.1)) (hb : ∀ o, b.get o = false)
    (j : Nat) : mapGet ((k, b) :: rest) j = mapGet rest j := by
  by_cases h : j >>> BLOCK_BITS = k
  · rw [mapGet_cons_eq k b rest j h, hb]
    symm
    apply mapGet_eq_false_of_keys_gt
    intro e he
    rw [h]
    exact (List.pairwise_cons.mp hpw).1 e he
  · exact mapGet_cons_ne k b rest j h

/-- Behaviour of one `pop_min` call at the level of the map/cursor pair, on
any well-formed state: the loop always returns (no empty-map dereference),
preserves the invariants, and either reports the sentinel with the map
drained (when nothing is pending) or pops exactly the smallest pending
identifier, leaving its (now possibly empty) block in place and caching the
popped offset in the cursor. -/
theorem pop_min_go_spec (l : List (Nat × block)) : ∀ (ns : Option Nat),
    mapWF l → cursorInv l ns →
    ∃ idp p' ns', pop_min_go l ns = some (idp, p', ns') ∧
      mapWF p' ∧ cursorInv p' ns' ∧
      (((∀ j, mapGet l j = false) ∧ idp = OSMID_MAX ∧ p' = [] ∧ ns' = none) ∨
       (mapGet l idp = true ∧ (∀ j, j < idp → mapGet l j = false) ∧
        (∀ j, mapGet p' j = if j = idp then false else mapGet l j) ∧
        ns' = some (idp &&& BLOCK_MASK) ∧ (lookup (idp >>> BLOCK_BITS) p').isSome = true)) := by
  induction l with
  | nil =>
    intro ns hwf hc
    cases ns with
    | some c => exact absurd hc (by simp [cursorInv])
    | none =>
      exact ⟨OSMID_MAX, [], none, rfl, hwf, trivial,
        Or.inl ⟨fun j => rfl, rfl, rfl, rfl⟩⟩
  | cons e rest ih =>
    obtain ⟨k, b⟩ := e
    intro ns hwf hc
    have hbWF : blockWF b := hwf.2 (k, b) (List.mem_cons_self _ _)
    have hrestWF : mapWF rest :=
      ⟨hwf.1.of_cons, fun kb h => hwf.2 kb (List.mem_cons_of_mem _ h)⟩
    have hbelow : ∀ o, o < 32 * (ns.getD 0 / 32) → b.get o = false := by
      cases ns with
      | none => intro o ho; exact absurd ho (by simp)
      | some c =>
        obtain ⟨hclt, hcall⟩ := hc
        intro o ho
        exact hcall o (by simp only [Option.getD_some] at ho; omega)
    rcases next_set_spec b hbWF (ns.getD 0) with ⟨hsent, hall⟩ | ⟨hlt, hget, hge, hmin⟩
    · -- head block exhausted: it is erased and the loop continues
      have hclear : ∀ o, b.get o = false := by
        intro o
        rcases Nat.lt_or_ge o (32 * (ns.getD 0 / 32)) with h | h
        · exact hbelow o h
        · exact hall o h
      have hstep : pop_min_go ((k, b) :: rest) ns = pop_min_go rest none := by
        simp only [pop_min_go]
        rw [hsent]
        simp
      have hmg : ∀ j, mapGet ((k, b) :: rest) j = mapGet rest j :=
        mapGet_cons_clear k b rest hwf.1 hclear
      obtain ⟨idp, p', ns', hrun, hwf', hc', hcase⟩ := ih none hrestWF (cursorInv_none rest)
      refine ⟨idp, p', ns', by rw [hstep]; exact hrun, hwf', hc', ?_⟩
      rcases hcase with ⟨h1, h2, h3, h4⟩ | ⟨h1, h2, h3, h4, h5⟩
      · exact Or.inl ⟨fun j => by rw [hmg j]; exact h1 j, h2, h3, h4⟩
      · refine Or.inr ⟨by rw [hmg]; exact h1, fun j hj => by rw [hmg]; exact h2 j hj,
          fun j => by rw [hmg j] at *; exact h3 j, h4, h5⟩
    · -- a set bit was found and popped
      have hr65536 : b.next_set (ns.getD 0) < 65536 := by
        rw [BLOCK_SIZE_eq] at hlt; exact hlt
      have hrne : b.next_set (ns.getD 0) ≠ BLOCK_SIZE := Nat.ne_of_lt hlt
      have hstep : pop_min_go ((k, b) :: rest) ns =
          some ((k <<< BLOCK_BITS) ||| b.next_set (ns.getD 0),
            (k, b.set (b.next_set (ns.getD 0)) false) :: rest,
            some (b.next_set (ns.getD 0))) := by
        simp only [pop_min_go]
        rw [if_pos hrne]
      set r := b.next_set (ns.getD 0) with hrdef
      have hidp : (k <<< BLOCK_BITS) ||| r = 65536 * k + r := shiftLeft_or_eq k r hr65536
      have hbmin : ∀ o, o < r → b.get o = false := by
        intro o ho
        rcases Nat.lt_or_ge o (32 * (ns.getD 0 / 32)) with h | h
        · exact hbelow o h
        · exact hmin o h ho
      have hkey : ((k <<< BLOCK_BITS) ||| r) >>> BLOCK_BITS = k := by
        rw [shiftRight_sixteen, hidp]
        omega
      have hoffr : ((k <<< BLOCK_BITS) ||| r) &&& BLOCK_MASK = r := by
        rw [and_BLOCK_MASK, hidp]
        omega
      refine ⟨(k <<< BLOCK_BITS) ||| r, (k, b.set r false) :: rest, some r, hstep, ?_, ?_, ?_⟩
      · -- invariants of the new map
        constructor
        · refine List.Pairwise.cons ?_ hwf.1.of_cons
          intro y hy
          exact (List.pairwise_cons.mp hwf.1).1 y hy
        · intro kb hkb
          rcases List.mem_cons.mp hkb with rfl | hkb
          · exact set_WF b hbWF r false
          · exact hwf.2 _ (List.mem_cons_of_mem _ hkb)
      · -- cursor invariant
        refine ⟨hlt, ?_⟩
        intro j hj
        rcases Nat.eq_or_lt_of_le hj with rfl | hjlt
        · exact get_set_self b hbWF r hlt false
        · rw [get_set_ne b hbWF r j hlt (Nat.ne_of_lt hjlt)]
          exact hbmin j hjlt
      · refine Or.inr ⟨?_, ?_, ?_, by rw [hoffr], ?_⟩
        · rw [mapGet_cons_eq k b rest _ hkey, hoffr]
          exact hget
        · -- minimality among all pending ids
          intro j hj
          rw [hidp] at hj
          by_cases hcc : j >>> BLOCK_BITS = k
          · rw [mapGet_cons_eq k b rest j hcc]
            apply hbmin
            rw [and_BLOCK_MASK]
            rw [shiftRight_sixteen] at hcc
            omega
          · rw [mapGet_cons_ne k b rest j hcc]
            apply mapGet_eq_false_of_keys_gt
            intro e he
            have hek := (List.pairwise_cons.mp hwf.1).1 e he
            rw [shiftRight_sixteen] at hcc ⊢
            omega
        · -- every other identifier is unchanged; the popped one is cleared
          intro j
          by_cases hcc : j >>> BLOCK_BITS = k
          · rw [mapGet_cons_eq k (b.set r false) rest j hcc]
            by_cases hoffeq : j &&& BLOCK_MASK = r
            · have hjidp : j = (k <<< BLOCK_BITS) ||| r := by
                have e1 := Nat.div_add_mod j 65536
                rw [and_BLOCK_MASK] at hoffeq
                rw [shiftRight_sixteen] at hcc
                omega
              rw [if_pos hjidp, hjidp, hoffr]
              exact get_set_self b hbWF r hlt false
            · have hjidp : j ≠ (k <<< BLOCK_BITS) ||| r := by
                intro hcon
                rw [hcon, hoffr] at hoffeq
                exact hoffeq rfl
              rw [if_neg hjidp, get_set_ne b hbWF r _ hlt hoffeq,
                mapGet_cons_eq k b rest j hcc]
          · have hjidp : j ≠ (k <<< BLOCK_BITS) ||| r := by
              intro hcon
              rw [hcon, hkey] at hcc
              exact hcc rfl
            rw [if_neg hjidp, mapGet_cons_ne k (b.set r false) rest j hcc,
              mapGet_cons_ne k b rest j hcc]
        · rw [hkey, lookup, if_pos rfl]
          rfl

/-! ### Lifting to the pimpl state and the reachability invariant -/

theorem pop_min_spec (s : pimpl) (hwf : mapWF s.pending)
    (hc : cursorInv s.pending s.next_start) :
    ∃ idp s1, s.pop_min = some (idp, s1) ∧ s1.old_id = s.old_id ∧
      mapWF s1.pending ∧ cursorInv s1.pending s1.next_start ∧
      (((∀ j, s.get j = false) ∧ idp = OSMID_MAX ∧ s1.pending = []) ∨
       (s.get idp = true ∧ (∀ j, j < idp → s.get j = false) ∧
        (∀ j, s1.get j = if j = idp then false else s.get j) ∧
        s1.next_start = some (idp &&& BLOCK_MASK) ∧
        (lookup (idp >>> BLOCK_BITS) s1.pending).isSome = true)) := by
  obtain ⟨idp, p', ns', hrun, hwf', hc', hcase⟩ :=
    pop_min_go_spec s.pending s.next_start hwf hc
  refine ⟨idp, { s with pending := p', next_start := ns' }, ?_, rfl, hwf', hc', ?_⟩
  · rw [pimpl.pop_min, hrun]
  · rcases hcase with ⟨h1, h2, h3, h4⟩ | ⟨h1, h2, h3, h4, h5⟩
    · exact Or.inl ⟨h1, h2, h3⟩
    · exact Or.inr ⟨h1, h2, h3, h4, h5⟩

theorem mark_next_start (s : pimpl) (id : Nat) : (mark s id).next_start = none := by
  show (if s.next_start.isSome then none else s.next_start) = none
  cases s.next_start <;> rfl

theorem mark_old_id (s : pimpl) (id : Nat) : (mark s id).old_id = OSMID_MIN := rfl

/-- Effect of `mark` on membership: exactly the bit for `id` is set. -/
theorem mark_get (s : pimpl) (h : mapWF s.pending) (id j : Nat) :
    (mark s id).get j = if j = id then true else s.get j :=
  mapGet_insertWith_set s.pending h id true j

theorem mark_Inv (s : pimpl) (id : Nat) (h : Inv s) : Inv (mark s id) := by
  obtain ⟨⟨hpw, hbl⟩, hc, hg⟩ := h
  refine ⟨⟨?_, ?_⟩, ?_, ?_⟩
  · exact insertWith_pairwise _ _ _ hpw
  · exact insertWith_blocksWF _ _ _ hbl (fun b hb => set_WF b hb _ true)
  · rw [mark_next_start]
    exact cursorInv_none _
  · intro j hj
    show OSMID_MIN < (j : Int)
    rw [OSMID_MIN]
    have := Int.natCast_nonneg j
    omega

/-- One `pop_mark` call from an invariant-satisfying state: it returns, the
assertion holds, the invariant is preserved, and the result is either the
sentinel (nothing pending, map drained) or the minimum pending identifier,
which is removed. -/
theorem pop_mark_spec (s : pimpl) (h : Inv s) :
    ∃ idp ok s', pop_mark s = some (idp, ok, s') ∧ ok = true ∧ Inv s' ∧
      (((∀ j, s.get j = false) ∧ idp = OSMID_MAX ∧ s'.pending = []) ∨
       (s.get idp = true ∧ (∀ j, j < idp → s.get j = false) ∧
        (∀ j, s'.get j = if j = idp then false else s.get j) ∧
        s'.next_start = some (idp &&& BLOCK_MASK) ∧
        (lookup (idp >>> BLOCK_BITS) s'.pending).isSome = true)) := by
  obtain ⟨hwf, hc, hg⟩ := h
  obtain ⟨idp, s1, hrun, hold, hwf', hc', hcase⟩ := pop_min_spec s hwf hc
  have hpm : pop_mark s = some (idp,
      (decide (s1.old_id < (idp : Int)) || decide (idp = OSMID_MAX)),
      { s1 with old_id := (idp : Int) }) := by
    rw [pop_mark, hrun]
  have hok : (decide (s1.old_id < (idp : Int)) || decide (idp = OSMID_MAX)) = true := by
    rcases hcase with ⟨h1, h2, h3⟩ | ⟨h1, h2, h3, h4, h5⟩
    · simp [h2]
    · have := hg idp h1
      rw [hold]
      simp [this]
  refine ⟨idp, _, _, hpm, hok, ⟨hwf', hc', ?_⟩, ?_⟩
  · -- guard invariant after the pop
    intro j hj
    have hj' : s1.get j = true := hj
    show (idp : Int) < (j : Int)
    rcases hcase with ⟨h1, h2, h3⟩ | ⟨h1, h2, h3, h4, h5⟩
    · have : s1.get j = false := by
        show mapGet s1.pending j = false
        rw [h3]
        rfl
      rw [this] at hj'
      exact Bool.noConfusion hj'
    · rw [h3 j] at hj'
      by_cases hje : j = idp
      · rw [if_pos hje] at hj'
        exact Bool.noConfusion hj'
      · rw [if_neg hje] at hj'
        have hnotlt : ¬ j < idp := fun hcon => by
          rw [h2 j hcon] at hj'
          exact Bool.noConfusion hj'
        exact_mod_cast Nat.lt_of_le_of_ne (Nat.le_of_not_lt hnotlt) (Ne.symm hje)
  · rcases hcase with ⟨h1, h2, h3⟩ | ⟨h1, h2, h3, h4, h5⟩
    · exact Or.inl ⟨h1, h2, h3⟩
    · exact Or.inr ⟨h1, h2, h3, h4, h5⟩

theorem init_Inv : Inv pimpl.init := by
  refine ⟨⟨List.Pairwise.nil, ?_⟩, trivial, ?_⟩
  · intro kb hkb
    exact absurd hkb (List.not_mem_nil kb)
  · intro id hid
    exact Bool.noConfusion hid

/-- Every reachable tracker state satisfies the data-structure invariant. -/
theorem reachable_Inv (s : pimpl) (h : Reachable s) : Inv s := by
  induction h with
  | start => exact init_Inv
  | step_mark s id hs hid ih => exact mark_Inv s id ih
  | step_pop s id ok s' hs hpm ih =>
    obtain ⟨idp, ok2, s2, hpm2, _, hinv, _⟩ := pop_mark_spec s ih
    have heq := hpm.symm.trans hpm2
    simp only [Option.some.injEq, Prod.mk.injEq] at heq
    obtain ⟨h1, h2, h3⟩ := heq
    rw [h3]
    exact hinv

/-- The pop-minimum loop performs at most one iteration per block in the map,
plus one: every iteration that does not return erases the head block. -/
theorem pop_min_iters_le (l : List (Nat × block)) : ∀ ns, pop_min_iters l ns ≤ l.length + 1 := by
  induction l with
  | nil =>
    intro ns
    cases ns <;> simp [pop_min_iters]
  | cons e rest ih =>
    intro ns
    obtain ⟨k, b⟩ := e
    rw [pop_min_iters]
    split
    · simp
    · have := ih none
      simp only [List.length_cons]
      omega

/-- Running a trace from a reachable state whose membership agrees with a
reference predicate keeps the implementation and the reference predicate in
agreement. -/
theorem runTrack_spec : ∀ (ops : List Op) (s : pimpl) (f : Nat → Bool),
    Reachable s → (∀ j, s.get j = f j) → (∀ op ∈ ops, opValid op) →
    ∃ s' f', runTrack s f ops = some (s', f') ∧ Reachable s' ∧ ∀ j, s'.get j = f' j := by
  intro ops
  induction ops with
  | nil => exact fun s f hr hf hv => ⟨s, f, rfl, hr, hf⟩
  | cons op rest ih =>
    intro s f hr hf hv
    have hvrest : ∀ o ∈ rest, opValid o := fun o ho => hv o (List.mem_cons_of_mem _ ho)
    cases op with
    | markOp id =>
      have hid : id ≤ OSMID_MAX := hv _ (List.mem_cons_self _ _)
      refine ih (mark s id) (fun j => if j = id then true else f j)
        (Reachable.step_mark s id hr hid) ?_ hvrest
      intro j
      rw [mark_get s (reachable_Inv s hr).1 id j, hf j]
    | popOp =>
      obtain ⟨idp, ok, s', hpm, hok, hinv, hcase⟩ := pop_mark_spec s (reachable_Inv s hr)
      have hr' : Reachable s' := Reachable.step_pop s idp ok s' hr hpm
      have hstep : runTrack s f (Op.popOp :: rest) =
          runTrack s' (fun j => if j = idp then false else f j) rest := by
        show (match pop_mark s with
          | none => none
          | some (id, _, s1) => runTrack s1 (fun j => if j = id then false else f j) rest) = _
        rw [hpm]
      rw [hstep]
      refine ih s' (fun j => if j = idp then false else f j) hr' ?_ hvrest
      intro j
      show s'.get j = if j = idp then false else f j
      rcases hcase with ⟨h1, h2, h3⟩ | ⟨h1, h2, h3, h4, h5⟩
      · have hsg : s'.get j = false := by
          show mapGet s'.pending j = false
          rw [h3]
          rfl
        rw [hsg]
        by_cases hje : j = idp
        · rw [if_pos hje]
        · rw [if_neg hje, ← hf j, h1 j]
      · rw [h3 j, ← hf j]

/-! ### Claim theorems -/

/-- C1: on every reachable tracker state, `pop_mark` returns; when at least
one identifier is pending it returns the smallest pending identifier and
removes exactly that identifier, and when none is pending it returns the
maximum representable identifier value as the "no pending ids" sentinel (in
particular on a freshly constructed tracker, whose pending set is empty). -/
theorem C1_pop_mark_pops_minimum (s : pimpl) (hs : Reachable s) :
    ∃ id ok s', pop_mark s = some (id, ok, s') ∧
      ((∃ j, s.get j = true) →
        s.get id = true ∧ (∀ j, s.get j = true → id ≤ j) ∧
        (∀ j, s'.get j = true ↔ s.get j = true ∧ j ≠ id)) ∧
      ((∀ j, s.get j = false) → id = OSMID_MAX ∧ ∀ j, s'.get j = false) := by
  obtain ⟨idp, ok, s', hpm, hok, hinv, hcase⟩ := pop_mark_spec s (reachable_Inv s hs)
  refine ⟨idp, ok, s', hpm, ?_, ?_⟩
  · rintro ⟨j0, hj0⟩
    rcases hcase with ⟨h1, h2, h3⟩ | ⟨h1, h2, h3, h4, h5⟩
    · rw [h1 j0] at hj0
      exact Bool.noConfusion hj0
    · refine ⟨h1, ?_, ?_⟩
      · intro j hj
        by_contra hcon
        rw [h2 j (Nat.not_le.mp hcon)] at hj
        exact Bool.noConfusion hj
      · intro j
        rw [h3 j]
        constructor
        · intro h
          by_cases hje : j = idp
          · rw [if_pos hje] at h
            exact Bool.noConfusion h
          · rw [if_neg hje] at h
            exact ⟨h, hje⟩
        · rintro ⟨hg, hne⟩
          rw [if_neg hne]
          exact hg
  · intro hall
    rcases hcase with ⟨h1, h2, h3⟩ | ⟨h1, h2, h3, h4, h5⟩
    · refine ⟨h2, ?_⟩
      intro j
      show mapGet s'.pending j = false
      rw [h3]
      rfl
    · rw [hall idp] at h1
      exact Bool.noConfusion h1

/-- Witness for C1 at the concrete reachable state with identifier 5 pending. -/
theorem C1_witness : (pop_mark (mark pimpl.init 5)).isSome = true := by
  obtain ⟨id, ok, s', hpm, -, -⟩ :=
    C1_pop_mark_pops_minimum (mark pimpl.init 5)
      (Reachable.step_mark pimpl.init 5 Reachable.start (by decide))
  rw [hpm]
  rfl

/-- C2 is refuted: on the block with only bit 0 set, `next_set 1` returns 0,
which is neither an offset at or after the start offset 1 nor the sentinel
`BLOCK_SIZE`, although no set bit exists at or after offset 1 (so the claim
would require the sentinel).  The scan restarts from the beginning of the
word containing `start`, not from `start` itself. -/
theorem C2_counterexample :
    (block.new.set 0 true).next_set 1 = 0 ∧ ¬ (1 ≤ (0 : Nat)) ∧ (0 : Nat) ≠ BLOCK_SIZE := by
  have hwf := set_WF block.new new_WF 0 true
  have hget : (block.new.set 0 true).get 0 = true :=
    get_set_self block.new new_WF 0 (by norm_num [BLOCK_SIZE_eq]) true
  refine ⟨?_, by norm_num, by norm_num [BLOCK_SIZE_eq]⟩
  rcases next_set_spec (block.new.set 0 true) hwf 1 with ⟨hs, hall⟩ | ⟨hlt, hg, hge, hmin⟩
  · rw [hall 0 (by norm_num)] at hget
    exact Bool.noConfusion hget
  · by_contra hne
    have h0 : 0 < (block.new.set 0 true).next_set 1 :=
      Nat.pos_of_ne_zero (fun hcon => hne hcon)
    rw [hmin 0 (by norm_num) h0] at hget
    exact Bool.noConfusion hget

/-- C2 amended: `next_set(start)` scans at word granularity: it returns the
smallest set-bit offset at or after the word boundary `32 * (start / 32)`
(which may be smaller than `start` when `start` is not a multiple of 32), and
returns the sentinel `BLOCK_SIZE` exactly when no bit at or after that word
boundary is set.  When `start` is word-aligned this coincides with the
original claim. -/
theorem C2_amended_next_set (b : block) (hwf : blockWF b) (start : Nat) :
    (b.next_set start = BLOCK_SIZE ∧ ∀ o, 32 * (start / 32) ≤ o → b.get o = false) ∨
    (b.next_set start < BLOCK_SIZE ∧ b.get (b.next_set start) = true ∧
      32 * (start / 32) ≤ b.next_set start ∧
      ∀ o, 32 * (start / 32) ≤ o → o < b.next_set start → b.get o = false) :=
  next_set_spec b hwf start

/-- Witness for C2's amended theorem on the counterexample block. -/
theorem C2_witness :
    (block.new.set 0 true).next_set 1 < BLOCK_SIZE ∧
    (block.new.set 0 true).get ((block.new.set 0 true).next_set 1) = true := by
  have hwf := set_WF block.new new_WF 0 true
  have hget : (block.new.set 0 true).get 0 = true :=
    get_set_self block.new new_WF 0 (by norm_num [BLOCK_SIZE_eq]) true
  rcases C2_amended_next_set (block.new.set 0 true) hwf 1 with ⟨hs, hall⟩ | ⟨hlt, hg, hge, hmin⟩
  · rw [hall 0 (by norm_num)] at hget
    exact Bool.noConfusion hget
  · exact ⟨hlt, hg⟩

/-- C3 is refuted: after marking only identifier 0 and popping it (the only
marked identifier of block 0), the pop returns 0 but block 0 is still present
in the map: the emptied block is not removed by the pop that empties it. -/
theorem C3_counterexample :
    (pop_mark (mark pimpl.init 0)).map
      (fun r => (r.1, (lookup (0 >>> BLOCK_BITS) r.2.2.pending).isSome)) = some (0, true) := by
  obtain ⟨idp, ok, s', hpm, hok, hinv, hcase⟩ :=
    pop_mark_spec (mark pimpl.init 0) (mark_Inv pimpl.init 0 init_Inv)
  have hg0 : (mark pimpl.init 0).get 0 = true := by
    rw [mark_get pimpl.init init_Inv.1 0 0, if_pos rfl]
  rcases hcase with ⟨h1, h2, h3⟩ | ⟨h1, h2, h3, h4, h5⟩
  · rw [h1 0] at hg0
    exact Bool.noConfusion hg0
  · have hidp : idp = 0 := by
      by_contra hcon
      rw [mark_get pimpl.init init_Inv.1 0 idp, if_neg hcon] at h1
      exact Bool.noConfusion h1
    subst hidp
    rw [hpm]
    show some ((0 : Nat), (lookup (0 >>> BLOCK_BITS) s'.pending).isSome) = some (0, true)
    rw [h5]

/-- C3 amended: a pop that returns a marked identifier leaves that
identifier's block in the map even when the popped bit was the block's last
set bit; the block entry is only removed by a later `pop_min` visit that
finds no set bit in it.  A pop that found a bit is exactly one whose
resulting cursor is engaged. -/
theorem C3_amended_lazy_removal (s : pimpl) (id : Nat) (ok : Bool) (s' : pimpl)
    (hs : Reachable s) (h : pop_mark s = some (id, ok, s'))
    (hsome : s'.next_start.isSome = true) :
    (lookup (id >>> BLOCK_BITS) s'.pending).isSome = true ∧ s'.get id = false := by
  obtain ⟨idp, ok2, s2, hpm2, hok2, hinv2, hcase⟩ := pop_mark_spec s (reachable_Inv s hs)
  have heq := h.symm.trans hpm2
  simp only [Option.some.injEq, Prod.mk.injEq] at heq
  obtain ⟨rfl, -, rfl⟩ := heq
  rcases hcase with ⟨h1, hA2, hA3⟩ | ⟨h1, hB2, hB3, hB4, hB5⟩
  · exfalso
    obtain ⟨-, hc', -⟩ := hinv2
    cases hns : s'.next_start with
    | none =>
      rw [hns] at hsome
      exact Bool.noConfusion hsome
    | some c =>
      rw [hA3, hns] at hc'
      exact hc'
  · exact ⟨hB5, by rw [hB3 id, if_pos rfl]⟩

/-- Witness for C3's amended theorem on the concrete trace mark 0, pop. -/
theorem C3_witness :
    (pop_mark (mark pimpl.init 0)).map
      (fun r => ((lookup (r.1 >>> BLOCK_BITS) r.2.2.pending).isSome, r.2.2.get r.1)) =
      some (true, false) := by
  obtain ⟨idp, ok, s', hpm, hok, hinv, hcase⟩ :=
    pop_mark_spec (mark pimpl.init 0) (mark_Inv pimpl.init 0 init_Inv)
  have hg0 : (mark pimpl.init 0).get 0 = true := by
    rw [mark_get pimpl.init init_Inv.1 0 0, if_pos rfl]
  have hr : Reachable (mark pimpl.init 0) :=
    Reachable.step_mark pimpl.init 0 Reachable.start (by decide)
  rcases hcase with ⟨h1, h2, h3⟩ | ⟨h1, h2, h3, h4, h5⟩
  · rw [h1 0] at hg0
    exact Bool.noConfusion hg0
  · have hsome : s'.next_start.isSome = true := by
      rw [h4]
      rfl
    obtain ⟨w1, w2⟩ := C3_amended_lazy_removal (mark pimpl.init 0) idp ok s' hr hpm hsome
    rw [hpm]
    show some ((lookup (idp >>> BLOCK_BITS) s'.pending).isSome, s'.get idp) = some (true, false)
    rw [w1, w2]

/-- C4: for every finite sequence of `mark` / `is_marked` / `pop_mark` calls
(i.e. on every reachable state), the assertion inside `pop_mark` holds: the
popped identifier is the maximum-value sentinel or strictly greater than the
current guard.  In particular, marking an identifier smaller than the
largest previously popped identifier and popping again does not abort,
because `mark` resets the guard to the minimum representable value, which
lies strictly below every valid identifier. -/
theorem C4_assert_never_fails (s : pimpl) (id : Nat) (ok : Bool) (s' : pimpl)
    (hs : Reachable s) (h : pop_mark s = some (id, ok, s')) : ok = true := by
  obtain ⟨idp, ok2, s2, hpm2, hok2, -, -⟩ := pop_mark_spec s (reachable_Inv s hs)
  have heq := h.symm.trans hpm2
  simp only [Option.some.injEq, Prod.mk.injEq] at heq
  rw [heq.2.1]
  exact hok2

/-- Witness for C4 on the trace mark 5, pop, mark 3, pop: the second pop
follows a mark below the previously popped identifier and its assertion
still holds. -/
theorem C4_witness :
    ((pop_mark (mark pimpl.init 5)).bind (fun r => pop_mark (mark r.2.2 3))).map
      (fun r => r.2.1) = some true := by
  have hr1 : Reachable (mark pimpl.init 5) :=
    Reachable.step_mark pimpl.init 5 Reachable.start (by decide)
  obtain ⟨id1, ok1, s1, hpm1, -, -, -⟩ :=
    pop_mark_spec (mark pimpl.init 5) (reachable_Inv _ hr1)
  have hr2 : Reachable s1 := Reachable.step_pop _ id1 ok1 s1 hr1 hpm1
  have hr3 : Reachable (mark s1 3) := Reachable.step_mark s1 3 hr2 (by decide)
  obtain ⟨id2, ok2, s2, hpm2, -, -, -⟩ :=
    pop_mark_spec (mark s1 3) (reachable_Inv _ hr3)
  have hok2 := C4_assert_never_fails (mark s1 3) id2 ok2 s2 hr3 hpm2
  rw [hpm1]
  show (pop_mark (mark s1 3)).map (fun r => r.2.1) = some true
  rw [hpm2]
  show some ok2 = some true
  rw [hok2]

/-- C5 is refuted on the trace mark 5, pop, mark 5: the pop returns 5, so
the set of marked identifiers is the singleton 5 and the set of popped
identifiers is also the singleton 5, whose difference is empty — but
`is_marked 5` is true in the final state, because the second mark re-adds
the identifier after the pop removed it. -/
theorem C5_counterexample :
    (pop_mark (mark pimpl.init 5)).map (fun r => (r.1, (mark r.2.2 5).get 5)) = some (5, true) ∧
    ¬ ((5 ∈ [5, 5] ∧ 5 ∉ [5]) ↔ True) := by
  constructor
  · obtain ⟨idp, ok, s', hpm, hok, hinv, hcase⟩ :=
      pop_mark_spec (mark pimpl.init 5) (mark_Inv pimpl.init 5 init_Inv)
    have hg5 : (mark pimpl.init 5).get 5 = true := by
      rw [mark_get pimpl.init init_Inv.1 5 5, if_pos rfl]
    rcases hcase with ⟨h1, h2, h3⟩ | ⟨h1, h2, h3, h4, h5⟩
    · rw [h1 5] at hg5
      exact Bool.noConfusion hg5
    · have hidp : idp = 5 := by
        by_contra hcon
        rw [mark_get pimpl.init init_Inv.1 5 idp, if_neg hcon] at h1
        exact Bool.noConfusion h1
      subst hidp
      rw [hpm]
      show some ((5 : Nat), (mark s' 5).get 5) = some (5, true)
      rw [mark_get s' hinv.1 5 5, if_pos rfl]
  · simp

/-- C5 amended: after any valid interleaving of mark and pop calls, an
identifier is pending exactly when the trace, read left to right, last
touched it with a mark rather than a pop that returned it: the reference
predicate updated per event ("mark id" sets it, "pop returned id" clears
it) agrees with `is_marked` everywhere.  The original set-difference
formulation holds only for traces that never re-mark a popped identifier;
re-marking makes the identifier pending again. -/
theorem C5_amended_membership (ops : List Op) (hv : ∀ op ∈ ops, opValid op) :
    ∃ s' f', runTrack pimpl.init (fun _ => false) ops = some (s', f') ∧
      ∀ id, s'.get id = f' id := by
  obtain ⟨s', f', hrun, -, hsame⟩ :=
    runTrack_spec ops pimpl.init (fun _ => false) Reachable.start (fun j => rfl) hv
  exact ⟨s', f', hrun, hsame⟩

/-- Witness for C5's amended theorem on the counterexample trace. -/
theorem C5_witness :
    (runTrack pimpl.init (fun _ => false) [Op.markOp 5, Op.popOp, Op.markOp 5]).isSome
      = true := by
  obtain ⟨s', f', hrun, -⟩ :=
    C5_amended_membership [Op.markOp 5, Op.popOp, Op.markOp 5] (by decide)
  rw [hrun]
  rfl

/-- C6: marking any representable identifier (including 0 and the maximum
representable value) and immediately testing it reports it as marked, from
any reachable prior state. -/
theorem C6_mark_then_is_marked (s : pimpl) (id : Nat) (hs : Reachable s)
    (hid : id ≤ OSMID_MAX) : (is_marked (mark s id) id).1 = true := by
  show (mark s id).get id = true
  rw [mark_get s (reachable_Inv s hs).1 id id, if_pos rfl]

/-- Witness for C6 at both boundary identifiers, from a fresh tracker. -/
theorem C6_witness :
    (is_marked (mark pimpl.init 0) 0).1 = true ∧
    (is_marked (mark pimpl.init OSMID_MAX) OSMID_MAX).1 = true :=
  ⟨C6_mark_then_is_marked pimpl.init 0 Reachable.start (by decide),
   C6_mark_then_is_marked pimpl.init OSMID_MAX Reachable.start (Nat.le_refl OSMID_MAX)⟩

/-- C7: a `mark(id)` call sets exactly the bit for `id` (materialising its
block entry), unconditionally clears the scan cursor, resets the guard to
the minimum representable value, and changes no other identifier's
membership. -/
theorem C7_mark_frame (s : pimpl) (id : Nat) (hs : Reachable s) (hid : id ≤ OSMID_MAX) :
    (mark s id).next_start = none ∧ (mark s id).old_id = OSMID_MIN ∧
    (mark s id).get id = true ∧
    (lookup (id >>> BLOCK_BITS) (mark s id).pending).isSome = true ∧
    ∀ j, j ≠ id → (mark s id).get j = s.get j := by
  have hwf := (reachable_Inv s hs).1
  refine ⟨mark_next_start s id, rfl, ?_, ?_, ?_⟩
  · rw [mark_get s hwf id id, if_pos rfl]
  · show (lookup (id >>> BLOCK_BITS)
      (insertWith (id >>> BLOCK_BITS) (fun b => b.set (id &&& BLOCK_MASK) true)
        s.pending)).isSome = true
    rw [lookup_insertWith _ _ _ hwf.1, if_pos rfl]
    rfl
  · intro j hj
    rw [mark_get s hwf id j, if_neg hj]

/-- Witness for C7 on a fresh tracker, marking 70000 and checking an
untouched identifier. -/
theorem C7_witness :
    (mark pimpl.init 70000).next_start = none ∧
    (mark pimpl.init 70000).old_id = OSMID_MIN ∧
    (mark pimpl.init 70000).get 70000 = true ∧
    (mark pimpl.init 70000).get 10 = pimpl.init.get 10 := by
  obtain ⟨h1, h2, h3, h4, h5⟩ := C7_mark_frame pimpl.init 70000 Reachable.start (by decide)
  exact ⟨h1, h2, h3, h5 10 (by decide)⟩

/-- C8: `is_marked` never mutates the tracker state, and when the queried
identifier's block index is absent from the map it returns false without
creating a map entry. -/
theorem C8_is_marked_pure (s : pimpl) (id : Nat) :
    (is_marked s id).2 = s ∧
    (lookup (id >>> BLOCK_BITS) s.pending = none → (is_marked s id).1 = false) := by
  refine ⟨rfl, ?_⟩
  intro h
  show mapGet s.pending id = false
  rw [mapGet, h]

/-- Witness for C8 on a fresh tracker and an absent identifier. -/
theorem C8_witness :
    (is_marked pimpl.init 7).2 = pimpl.init ∧ (is_marked pimpl.init 7).1 = false := by
  obtain ⟨h1, h2⟩ := C8_is_marked_pure pimpl.init 7
  exact ⟨h1, h2 rfl⟩

/-- C9: in every reachable state, an engaged cursor implies a non-empty
block map, so the access to the first map entry inside the `pop_min` loop
never dereferences the end of an empty map: `pop_min` always returns. -/
theorem C9_cursor_map_nonempty (s : pimpl) (hs : Reachable s) :
    (s.next_start.isSome = true → s.pending ≠ []) ∧ s.pop_min.isSome = true := by
  obtain ⟨hwf, hc, hg⟩ := reachable_Inv s hs
  constructor
  · intro hsome
    cases hns : s.next_start with
    | none =>
      rw [hns] at hsome
      exact Bool.noConfusion hsome
    | some c =>
      cases hp : s.pending with
      | nil =>
        rw [hp, hns] at hc
        exact hc.elim
      | cons e rest => simp
  · obtain ⟨idp, s1, hrun, -⟩ := pop_min_spec s hwf hc
    rw [hrun]
    rfl

/-- Witness for C9 on a fresh tracker. -/
theorem C9_witness :
    (pimpl.init.next_start.isSome = true → pimpl.init.pending ≠ []) ∧
    pimpl.init.pop_min.isSome = true :=
  C9_cursor_map_nonempty pimpl.init Reachable.start

/-- C10: the `pop_min` loop runs at most one iteration per block present in
the map, plus one: every iteration either breaks with a popped identifier or
erases one block, so the iteration count (mirrored by `pop_min_iters`) is
bounded by the number of blocks plus one on every state, reachable states
included. -/
theorem C10_pop_min_iterations_bounded (s : pimpl) :
    pop_min_iters s.pending s.next_start ≤ s.pending.length + 1 :=
  pop_min_iters_le s.pending s.next_start

end IdTrackerSpec
